import Mathlib

/-!
Shallow embedding of the bestia-tracker session ledger
(src/types.ts, src/storage.ts, src/utils/sharing.ts) and proofs of the
specification claims. Monetary amounts and prese counts are modelled as
rationals; JS `Map` objects are modelled as insertion-ordered association
lists; `Math.random()` identifiers and `Date.now()` timestamps are external
inputs passed as explicit parameters.
-/

namespace BestiaTracker

/-- Event types from src/types.ts. -/
inductive EventType where
  | dealer_pay
  | round_end
  | giro_chiuso
  | manual_entry
deriving DecidableEq

/-- A single ledger transaction (src/types.ts). -/
structure Transaction where
  playerId : String
  amount : ℚ
deriving DecidableEq

/-- Event metadata (src/types.ts). The `prese` JS Map is an association
list in insertion order. -/
structure EventMetadata where
  dealerPlayerId : Option String
  prese : Option (List (String × ℚ))
  bestiaPlayers : Option (List String)
  description : Option String
deriving DecidableEq

/-- A ledger event (src/types.ts). -/
structure GameEvent where
  id : String
  type : EventType
  timestamp : ℤ
  transactions : List Transaction
  metadata : Option EventMetadata
deriving DecidableEq

/-- A player (src/types.ts). -/
structure Player where
  id : String
  name : String
  balance : ℚ
  isActive : Bool
deriving DecidableEq

/-- A game session (src/types.ts). -/
structure GameSession where
  id : String
  piatto : ℚ
  players : List Player
  currentDealerIndex : ℕ
  events : List GameEvent
  createdAt : ℤ
  updatedAt : ℤ
  currency : Option String
deriving DecidableEq

/-- JS `Map.get`: the value bound to a key, if any. -/
def jsMapGet : List (String × ℚ) → String → Option ℚ
  | [], _ => none
  | q :: rest, k => if q.1 = k then some q.2 else jsMapGet rest k

/-- JS `Map.set`: updates an existing binding in place (keeping its
insertion position), otherwise appends a new binding at the end. -/
def jsMapSet : List (String × ℚ) → String → ℚ → List (String × ℚ)
  | [], k, v => [(k, v)]
  | q :: rest, k, v => if q.1 = k then (k, v) :: rest else q :: jsMapSet rest k v

/-- `new Map(pairs)`: builds a JS Map by setting each pair in order. -/
def jsNewMap (ps : List (String × ℚ)) : List (String × ℚ) :=
  ps.foldl (fun m q => jsMapSet m q.1 q.2) []

/-- `Array.from(m.entries())`: the entry list of a JS Map in insertion
order (the identity on the association-list model). -/
def jsMapEntries (m : List (String × ℚ)) : List (String × ℚ) := m

/-- JS `x || y` on an optional string: `undefined` and the empty string
are falsy and fall through to the default. -/
def jsOrString (o : Option String) (dflt : String) : String :=
  match o with
  | none => dflt
  | some x => if x = "" then dflt else x

/-- StorageService.calculateCurrentPot (src/storage.ts:208): the negated
running sum of every transaction amount across all events. -/
def calculateCurrentPot (s : GameSession) : ℚ :=
  -(s.events.foldl (fun acc e => e.transactions.foldl (fun a t => a + t.amount) acc) 0)

/-- StorageService.calculatePlayerBalances (src/storage.ts:223):
initialize every player at 0, then fold every transaction into the map. -/
def calculatePlayerBalances (s : GameSession) : List (String × ℚ) :=
  let balances := s.players.foldl (fun m p => jsMapSet m p.id 0) []
  s.events.foldl
    (fun m e =>
      e.transactions.foldl
        (fun m t => jsMapSet m t.playerId ((jsMapGet m t.playerId).getD 0 + t.amount)) m)
    balances

/-- `session.players[session.currentDealerIndex].id` (total model: out of
range yields the empty string where the JS would throw). -/
def dealerIdAt (s : GameSession) : String :=
  ((s.players[s.currentDealerIndex]?).map Player.id).getD ""

/-- The payout map initialization of recordRound (src/storage.ts:86):
every player starts at 0. -/
def initPayouts (players : List Player) : List (String × ℚ) :=
  players.foldl (fun m p => jsMapSet m p.id 0) []

/-- The winner loop of recordRound (src/storage.ts:98 and 109, identical
in both branches): each winner entry is credited
(prese / totalPrese) * potAtStart. -/
def addWinnerShares (winners : List (String × ℚ)) (totalPrese potAtStart : ℚ)
    (m : List (String × ℚ)) : List (String × ℚ) :=
  winners.foldl
    (fun m q => jsMapSet m q.1 ((jsMapGet m q.1).getD 0 + q.2 / totalPrese * potAtStart))
    m

/-- The bestia loop of recordRound (src/storage.ts:104): every listed
player is debited the full potAtStart, once per occurrence. -/
def addBestiaDebits (bestiaPlayerIds : List String) (potAtStart : ℚ)
    (m : List (String × ℚ)) : List (String × ℚ) :=
  bestiaPlayerIds.foldl
    (fun m pid => jsMapSet m pid ((jsMapGet m pid).getD 0 - potAtStart))
    m

/-- The payout computation of recordRound (src/storage.ts:83): pot taken
before the event is appended, winners are the positive prese entries, and
the bestia loop runs only when the bestia list is non-empty. -/
def roundPayouts (s : GameSession) (preseMap : List (String × ℚ))
    (bestiaPlayerIds : List String) : List (String × ℚ) :=
  let potAtStart := calculateCurrentPot s
  let winners := preseMap.filter (fun q => 0 < q.2)
  let totalPrese := (winners.map (fun q => q.2)).sum
  let withShares := addWinnerShares winners totalPrese potAtStart (initPayouts s.players)
  if bestiaPlayerIds.length > 0 then
    addBestiaDebits bestiaPlayerIds potAtStart withShares
  else
    withShares

/-- StorageService.recordRound (src/storage.ts:77). The pot is computed
before the new event is appended; winners are the prese-map entries with
a positive count; with a non-empty bestia list each bestia player is
debited the full pot on top of any winner share. -/
def recordRound (s : GameSession) (preseMap : List (String × ℚ))
    (bestiaPlayerIds : List String) (eid : String) (now : ℤ) : GameSession :=
  let dealerPlayerId := dealerIdAt s
  let payouts := roundPayouts s preseMap bestiaPlayerIds
  let transactions :=
    (payouts.filter (fun q => q.2 ≠ 0)).map (fun q => Transaction.mk q.1 q.2)
  let event : GameEvent :=
    { id := eid, type := EventType.round_end, timestamp := now,
      transactions := transactions,
      metadata := some { dealerPlayerId := some dealerPlayerId,
                         prese := some preseMap,
                         bestiaPlayers := some bestiaPlayerIds,
                         description := none } }
  { s with
    events := s.events ++ [event],
    currentDealerIndex := (s.currentDealerIndex + 1) % s.players.length,
    updatedAt := now }

/-- JS `Array.prototype.findIndex` on the player list (none models -1). -/
def findIndexAux : List Player → String → ℕ → Option ℕ
  | [], _, _ => none
  | p :: rest, did, i => if p.id = did then some i else findIndexAux rest did (i + 1)

/-- StorageService.recordDealerSelection (src/storage.ts:145): silently a
no-op when the id matches no player; otherwise moves the dealer index and
appends a dealer_pay event debiting the dealer the piatto. -/
def recordDealerSelection (s : GameSession) (dealerPlayerId : String)
    (eid : String) (now : ℤ) : GameSession :=
  match s.players.find? (fun p => p.id = dealerPlayerId) with
  | none => s
  | some _ =>
    match findIndexAux s.players dealerPlayerId 0 with
    | none => s
    | some dealerIndex =>
      let event : GameEvent :=
        { id := eid, type := EventType.dealer_pay, timestamp := now,
          transactions := [Transaction.mk dealerPlayerId (-s.piatto)],
          metadata := some { dealerPlayerId := some dealerPlayerId,
                             prese := none, bestiaPlayers := none,
                             description := none } }
      { s with
        currentDealerIndex := dealerIndex,
        events := s.events ++ [event],
        updatedAt := now }

/-- StorageService.recordGiroChiuso (src/storage.ts:180): every player in
session.players (active or not) is debited the piatto, a giro_chiuso
event is appended, and the dealer rotates. -/
def recordGiroChiuso (s : GameSession) (eid : String) (now : ℤ) : GameSession :=
  let dealerPlayerId := dealerIdAt s
  let transactions := s.players.map (fun p => Transaction.mk p.id (-s.piatto))
  let event : GameEvent :=
    { id := eid, type := EventType.giro_chiuso, timestamp := now,
      transactions := transactions,
      metadata := some { dealerPlayerId := some dealerPlayerId,
                         prese := none, bestiaPlayers := none,
                         description := none } }
  { s with
    events := s.events ++ [event],
    currentDealerIndex := (s.currentDealerIndex + 1) % s.players.length,
    updatedAt := now }

/-- `session.players[0].id` (total model of the JS fallback access). -/
def firstPlayerId (s : GameSession) : String :=
  (s.players.head?.map Player.id).getD ""

/-- The backwards scan of StorageService.getCurrentDealerId, expressed as
a forward recursion over the reversed event list. -/
def getCurrentDealerIdAux (s : GameSession) : List GameEvent → String
  | [] => firstPlayerId s
  | e :: rest =>
    if e.type = EventType.dealer_pay then
      jsOrString (e.metadata.bind (fun md => md.dealerPlayerId)) (firstPlayerId s)
    else
      getCurrentDealerIdAux s rest

/-- StorageService.getCurrentDealerId (src/storage.ts:241): scan events
backwards; on the most recent dealer_pay event return
`metadata?.dealerPlayerId || players[0].id`; fall back to the first
player when no dealer_pay event exists. -/
def getCurrentDealerId (s : GameSession) : String :=
  getCurrentDealerIdAux s s.events.reverse

/-- The per-event conversion of encodeGameForSharing
(src/utils/sharing.ts:12): the prese Map becomes its ordered entry list. -/
def encodeEventForSharing (e : GameEvent) : GameEvent :=
  { e with metadata :=
      e.metadata.map (fun md => { md with prese := md.prese.map jsMapEntries }) }

/-- encodeGameForSharing (src/utils/sharing.ts:9), up to the external
transport layers (JSON.stringify, pako gzip, base64): the repository's
own serialization step converts every nested prese Map to an ordered
list of pairs. The external layers form an exact inverse pair and are
not re-modelled. -/
def encodeGameForSharing (s : GameSession) : GameSession :=
  { s with events := s.events.map encodeEventForSharing }

/-- The per-event conversion of decodeGameFromSharing
(src/utils/sharing.ts:62): each serialized prese pair list is rebuilt
into a Map via `new Map(pairs)`. -/
def decodeEventFromSharing (e : GameEvent) : GameEvent :=
  { e with metadata :=
      e.metadata.map (fun md => { md with prese := md.prese.map jsNewMap }) }

/-- decodeGameFromSharing (src/utils/sharing.ts:39): inverts the external
transport and rebuilds the nested prese Maps; returns none on a
malformed payload (which cannot arise in the typed model). -/
def decodeGameFromSharing (p : GameSession) : Option GameSession :=
  some { p with events := p.events.map decodeEventFromSharing }

/-- A suggested settlement payment (spec section 4.3; names of the payer
and receiver are carried by id). -/
structure Payment where
  fromId : String
  toId : String
  amount : ℚ
deriving DecidableEq

/-- JS `m.set(k, (m.get(k) || 0) + a)`: add an amount to a binding. -/
def addToKey (m : List (String × ℚ)) (k : String) (a : ℚ) : List (String × ℚ) :=
  jsMapSet m k ((jsMapGet m k).getD 0 + a)

/-- Modelled from the spec: the largest-creditor pick of the settlement
greedy (spec section 4.3), first entry on ties. -/
def pickMax : List (String × ℚ) → Option (String × ℚ)
  | [] => none
  | q :: rest =>
    match pickMax rest with
    | none => some q
    | some r => if q.2 < r.2 then some r else some q

/-- Modelled from the spec: the largest-debtor pick of the settlement
greedy (spec section 4.3), first entry on ties. -/
def pickMin : List (String × ℚ) → Option (String × ℚ)
  | [] => none
  | q :: rest =>
    match pickMin rest with
    | none => some q
    | some r => if r.2 < q.2 then some r else some q

/-- Applies one settlement payment to a balance map: the payer's balance
rises by the amount, the receiver's outstanding credit falls by it. -/
def applyPayment (bal : List (String × ℚ)) (p : Payment) : List (String × ℚ) :=
  addToKey (addToKey bal p.toId (-p.amount)) p.fromId p.amount

/-- Modelled from the spec: the greedy loop of
calculateSettlementPayments (spec section 4.3), with explicit fuel. Each
step transfers min(|debt|, credit) and zeroes at least one balance, so
fuel equal to the number of balances suffices. -/
def settleAux : ℕ → List (String × ℚ) → List Payment
  | 0, _ => []
  | fuel + 1, bal =>
    match pickMax bal, pickMin bal with
    | some c, some d =>
      if 0 < c.2 ∧ d.2 < 0 then
        let p := Payment.mk d.1 c.1 (min c.2 (-d.2))
        p :: settleAux fuel (applyPayment bal p)
      else []
    | _, _ => []

/-- Modelled from the spec: StorageService.calculateSettlementPayments
(spec section 4.3), whose implementation is not among the provided
sources (only its caller GamePayments.render in
src/components/game-input.ts is). Given the final balances, greedily
match the largest debtor against the largest creditor and transfer
min(|debt|, credit) until no positive-against-negative pair remains;
ties break to the earliest player in map order. -/
def calculateSettlementPayments (s : GameSession) : List Payment :=
  let bal := calculatePlayerBalances s
  settleAux bal.length bal

/-- Sum of the amounts of a payment list. -/
def totalTransferred (ps : List Payment) : ℚ :=
  (ps.map Payment.amount).sum

/-- Sum of the values of a balance map. -/
def sumVals (m : List (String × ℚ)) : ℚ := (m.map Prod.snd).sum

/-- Sum of the positive parts of the values of a balance map. -/
def posVals (m : List (String × ℚ)) : ℚ := (m.map (fun q => max q.2 0)).sum

/-- Number of non-zero balances. -/
def nzCount (m : List (String × ℚ)) : ℕ := (m.filter (fun q => q.2 ≠ 0)).length

/-- Keys of an association list. -/
def keysOf (m : List (String × ℚ)) : List String := m.map Prod.fst

theorem addToKey_cons_eq (q : String × ℚ) (rest : List (String × ℚ))
    (k : String) (a : ℚ) (hq : q.1 = k) :
    addToKey (q :: rest) k a = (k, q.2 + a) :: rest := by
  simp [addToKey, jsMapSet, jsMapGet, hq]

theorem addToKey_cons_ne (q : String × ℚ) (rest : List (String × ℚ))
    (k : String) (a : ℚ) (hq : q.1 ≠ k) :
    addToKey (q :: rest) k a = q :: addToKey rest k a := by
  simp [addToKey, jsMapSet, jsMapGet, hq]

theorem jsMapGet_jsMapSet (m : List (String × ℚ)) (k k' : String) (v : ℚ) :
    jsMapGet (jsMapSet m k v) k' = if k' = k then some v else jsMapGet m k' := by
  induction m with
  | nil =>
    rcases eq_or_ne k' k with h | h
    · subst h; simp [jsMapSet, jsMapGet]
    · simp [jsMapSet, jsMapGet, h, h.symm]
  | cons q rest ih =>
    by_cases hq : q.1 = k
    · rcases eq_or_ne k' k with h | h
      · subst h; simp [jsMapSet, jsMapGet, hq]
      · have hqk : q.1 ≠ k' := by rw [hq]; exact h.symm
        simp [jsMapSet, jsMapGet, hq, h, hqk, h.symm]
    · by_cases hqk : q.1 = k'
      · have h : k' ≠ k := by rw [← hqk]; exact hq
        simp [jsMapSet, jsMapGet, hq, hqk, h]
      · simp [jsMapSet, jsMapGet, hq, hqk, ih]

theorem sumVals_addToKey (m : List (String × ℚ)) (k : String) (a : ℚ) :
    sumVals (addToKey m k a) = sumVals m + a := by
  induction m with
  | nil => simp [addToKey, jsMapSet, jsMapGet, sumVals]
  | cons q rest ih =>
    by_cases hq : q.1 = k
    · rw [addToKey_cons_eq q rest k a hq]
      simp [sumVals]
      ring
    · rw [addToKey_cons_ne q rest k a hq]
      simp [sumVals] at ih ⊢
      linarith

theorem posVals_addToKey (m : List (String × ℚ)) (k : String) (a : ℚ) :
    posVals (addToKey m k a) + max ((jsMapGet m k).getD 0) 0
      = posVals m + max ((jsMapGet m k).getD 0 + a) 0 := by
  induction m with
  | nil => simp [addToKey, jsMapSet, jsMapGet, posVals]
  | cons q rest ih =>
    by_cases hq : q.1 = k
    · rw [addToKey_cons_eq q rest k a hq]
      simp [posVals, jsMapGet, hq]
      ring
    · rw [addToKey_cons_ne q rest k a hq]
      simp [posVals, jsMapGet, hq] at ih ⊢
      linarith

theorem nzCount_addToKey (m : List (String × ℚ)) (k : String) (a : ℚ) :
    nzCount (addToKey m k a) + (if (jsMapGet m k).getD 0 ≠ 0 then 1 else 0)
      = nzCount m + (if (jsMapGet m k).getD 0 + a ≠ 0 then 1 else 0) := by
  induction m with
  | nil =>
    by_cases h : a = 0 <;> simp [addToKey, jsMapSet, jsMapGet, nzCount, h]
  | cons q rest ih =>
    by_cases hq : q.1 = k
    · rw [addToKey_cons_eq q rest k a hq]
      have hv : jsMapGet (q :: rest) k = some q.2 := by simp [jsMapGet, hq]
      rw [hv]
      by_cases h1 : q.2 = 0
      · by_cases h2 : q.2 + a = 0
        · have ha : a = 0 := by linarith
          simp [nzCount, h1, ha, List.filter_cons]
        · have ha : ¬ a = 0 := fun ha => h2 (by rw [h1, ha]; ring)
          simp [nzCount, h1, h2, ha, List.filter_cons]
      · by_cases h2 : q.2 + a = 0 <;>
          simp [nzCount, h1, h2, List.filter_cons] <;> omega
    · rw [addToKey_cons_ne q rest k a hq]
      by_cases h1 : q.2 = 0 <;>
        simp [nzCount, jsMapGet, hq, h1, List.filter_cons] at ih ⊢ <;> omega

theorem mem_jsMapSet (m : List (String × ℚ)) (k : String) (v : ℚ)
    (q : String × ℚ) (h : q ∈ jsMapSet m k v) : q = (k, v) ∨ q ∈ m := by
  induction m with
  | nil => simp [jsMapSet] at h; simp [h]
  | cons r rest ih =>
    by_cases hr : r.1 = k
    · simp [jsMapSet, hr] at h
      rcases h with h | h
      · left; simp [h]
      · right; simp [h]
    · simp [jsMapSet, hr] at h
      rcases h with h | h
      · right; simp [h]
      · rcases ih h with h2 | h2
        · left; exact h2
        · right; simp [h2]

theorem jsMapSet_of_not_mem (m : List (String × ℚ)) (k : String) (v : ℚ)
    (h : k ∉ keysOf m) : jsMapSet m k v = m ++ [(k, v)] := by
  induction m with
  | nil => simp [jsMapSet]
  | cons q rest ih =>
    have hq : q.1 ≠ k := by
      intro he
      exact h (by simp [keysOf, he])
    have hrest : k ∉ keysOf rest := by
      intro hm
      exact h (by simp [keysOf] at hm ⊢; right; exact hm)
    simp [jsMapSet, hq, ih hrest]

theorem keysOf_jsMapSet_of_mem (m : List (String × ℚ)) (k : String) (v : ℚ)
    (h : k ∈ keysOf m) : keysOf (jsMapSet m k v) = keysOf m := by
  induction m with
  | nil => simp [keysOf] at h
  | cons q rest ih =>
    by_cases hq : q.1 = k
    · simp [jsMapSet, hq, keysOf]
    · have hrest : k ∈ keysOf rest := by
        simp [keysOf] at h ⊢
        rcases h with h | h
        · exact absurd h.symm hq
        · exact h
      have hs : jsMapSet (q :: rest) k v = q :: jsMapSet rest k v := by
        simp [jsMapSet, hq]
      rw [hs]
      have h2 := ih hrest
      simp only [keysOf, List.map_cons] at h2 ⊢
      rw [h2]

theorem nodup_keysOf_jsMapSet (m : List (String × ℚ)) (k : String) (v : ℚ)
    (h : (keysOf m).Nodup) : (keysOf (jsMapSet m k v)).Nodup := by
  by_cases hk : k ∈ keysOf m
  · rw [keysOf_jsMapSet_of_mem m k v hk]; exact h
  · rw [jsMapSet_of_not_mem m k v hk]
    have hkeys : keysOf (m ++ [(k, v)]) = keysOf m ++ [k] := by simp [keysOf]
    rw [hkeys]
    refine List.Nodup.append h (List.nodup_singleton k) ?_
    intro x hx hx2
    simp at hx2
    subst hx2
    exact hk hx

theorem jsMapGet_eq_none_of_not_mem (m : List (String × ℚ)) (k : String)
    (h : k ∉ keysOf m) : jsMapGet m k = none := by
  induction m with
  | nil => simp [jsMapGet]
  | cons q rest ih =>
    have hq : q.1 ≠ k := fun he => h (by simp [keysOf, he])
    have hrest : k ∉ keysOf rest := fun hm => h (by simp [keysOf] at hm ⊢; right; exact hm)
    simp [jsMapGet, hq, ih hrest]

theorem jsMapGet_of_mem_nodup (m : List (String × ℚ)) (k : String) (v : ℚ)
    (hnd : (keysOf m).Nodup) (hm : (k, v) ∈ m) : jsMapGet m k = some v := by
  induction m with
  | nil => simp at hm
  | cons q rest ih =>
    have hnd2 : (keysOf rest).Nodup := by
      simp only [keysOf, List.map_cons, List.nodup_cons] at hnd
      exact hnd.2
    have hq1 : q.1 ∉ keysOf rest := by
      simp only [keysOf, List.map_cons, List.nodup_cons] at hnd
      exact hnd.1
    rcases List.mem_cons.mp hm with h | h
    · rw [← h]
      simp [jsMapGet]
    · have hq : q.1 ≠ k := by
        intro he
        apply hq1
        rw [he]
        exact List.mem_map_of_mem Prod.fst h
      simp [jsMapGet, hq]
      exact ih hnd2 h

theorem pickMax_mem (m : List (String × ℚ)) (c : String × ℚ)
    (h : pickMax m = some c) : c ∈ m := by
  induction m with
  | nil => simp [pickMax] at h
  | cons q rest ih =>
    rcases hr : pickMax rest with _ | r
    · simp [pickMax, hr] at h
      simp [← h]
    · simp [pickMax, hr] at h
      by_cases hlt : q.2 < r.2
      · simp [hlt] at h
        exact List.mem_cons_of_mem q (ih (h ▸ hr))
      · simp [hlt] at h
        simp [← h]

theorem pickMax_ne_none (q : String × ℚ) (rest : List (String × ℚ)) :
    pickMax (q :: rest) ≠ none := by
  rcases hr : pickMax rest with _ | r <;> simp [pickMax, hr]
  split <;> simp

theorem pickMin_ne_none (q : String × ℚ) (rest : List (String × ℚ)) :
    pickMin (q :: rest) ≠ none := by
  rcases hr : pickMin rest with _ | r <;> simp [pickMin, hr]
  split <;> simp

theorem pickMax_le (m : List (String × ℚ)) :
    ∀ c : String × ℚ, pickMax m = some c → ∀ q ∈ m, q.2 ≤ c.2 := by
  induction m with
  | nil => intro c h; simp [pickMax] at h
  | cons q rest ih =>
    intro c h x hx
    rcases hr : pickMax rest with _ | r
    · have hrest : rest = [] := by
        cases rest with
        | nil => rfl
        | cons y ys => exact absurd hr (pickMax_ne_none y ys)
      subst hrest
      simp [pickMax] at h
      simp at hx
      simp [hx, ← h]
    · simp [pickMax, hr] at h
      by_cases hlt : q.2 < r.2
      · simp [hlt] at h
        rcases List.mem_cons.mp hx with he | he
        · rw [← h, he]; exact le_of_lt hlt
        · exact h ▸ ih r hr x he
      · simp [hlt] at h
        rcases List.mem_cons.mp hx with he | he
        · simp [he, ← h]
        · have hle := ih r hr x he
          rw [← h]
          linarith [not_lt.mp hlt]

theorem pickMin_mem (m : List (String × ℚ)) (c : String × ℚ)
    (h : pickMin m = some c) : c ∈ m := by
  induction m with
  | nil => simp [pickMin] at h
  | cons q rest ih =>
    rcases hr : pickMin rest with _ | r
    · simp [pickMin, hr] at h
      simp [← h]
    · simp [pickMin, hr] at h
      by_cases hlt : r.2 < q.2
      · simp [hlt] at h
        exact List.mem_cons_of_mem q (ih (h ▸ hr))
      · simp [hlt] at h
        simp [← h]

theorem pickMin_ge (m : List (String × ℚ)) :
    ∀ c : String × ℚ, pickMin m = some c → ∀ q ∈ m, c.2 ≤ q.2 := by
  induction m with
  | nil => intro c h; simp [pickMin] at h
  | cons q rest ih =>
    intro c h x hx
    rcases hr : pickMin rest with _ | r
    · have hrest : rest = [] := by
        cases rest with
        | nil => rfl
        | cons y ys => exact absurd hr (pickMin_ne_none y ys)
      subst hrest
      simp [pickMin] at h
      simp at hx
      simp [hx, ← h]
    · simp [pickMin, hr] at h
      by_cases hlt : r.2 < q.2
      · simp [hlt] at h
        rcases List.mem_cons.mp hx with he | he
        · rw [← h, he]; exact le_of_lt hlt
        · exact h ▸ ih r hr x he
      · simp [hlt] at h
        rcases List.mem_cons.mp hx with he | he
        · simp [he, ← h]
        · have hle := ih r hr x he
          rw [← h]
          linarith [not_lt.mp hlt]

/-- Total of the transaction amounts of one event. -/
def eventAmounts (e : GameEvent) : ℚ := (e.transactions.map Transaction.amount).sum

theorem potFold_inner (ts : List Transaction) :
    ∀ acc : ℚ, ts.foldl (fun a t => a + t.amount) acc
      = acc + (ts.map Transaction.amount).sum := by
  induction ts with
  | nil => intro acc; simp
  | cons t rest ih =>
    intro acc
    simp only [List.foldl_cons, List.map_cons, List.sum_cons]
    rw [ih]
    ring

theorem potFold (events : List GameEvent) :
    ∀ acc : ℚ,
      events.foldl (fun acc e => e.transactions.foldl (fun a t => a + t.amount) acc) acc
        = acc + (events.map eventAmounts).sum := by
  induction events with
  | nil => intro acc; simp
  | cons e rest ih =>
    intro acc
    simp only [List.foldl_cons, List.map_cons, List.sum_cons]
    rw [ih, potFold_inner]
    simp [eventAmounts]
    ring

theorem sumVals_txFold (ts : List Transaction) :
    ∀ m : List (String × ℚ),
      sumVals (ts.foldl
          (fun m t => jsMapSet m t.playerId ((jsMapGet m t.playerId).getD 0 + t.amount)) m)
        = sumVals m + (ts.map Transaction.amount).sum := by
  induction ts with
  | nil => intro m; simp
  | cons t rest ih =>
    intro m
    simp only [List.foldl_cons, List.map_cons, List.sum_cons]
    rw [ih]
    rw [show jsMapSet m t.playerId ((jsMapGet m t.playerId).getD 0 + t.amount)
          = addToKey m t.playerId t.amount from rfl]
    rw [sumVals_addToKey]
    ring

theorem sumVals_evFold (events : List GameEvent) :
    ∀ m : List (String × ℚ),
      sumVals (events.foldl
          (fun m e => e.transactions.foldl
            (fun m t => jsMapSet m t.playerId ((jsMapGet m t.playerId).getD 0 + t.amount)) m)
          m)
        = sumVals m + (events.map eventAmounts).sum := by
  induction events with
  | nil => intro m; simp
  | cons e rest ih =>
    intro m
    simp only [List.foldl_cons, List.map_cons, List.sum_cons]
    rw [ih, sumVals_txFold]
    simp [eventAmounts]
    ring

theorem initBalances_zero (players : List Player) :
    ∀ m : List (String × ℚ), (∀ q ∈ m, q.2 = 0) →
      ∀ q ∈ players.foldl (fun m p => jsMapSet m p.id 0) m, q.2 = 0 := by
  induction players with
  | nil => intro m hm; simpa using hm
  | cons p rest ih =>
    intro m hm
    simp only [List.foldl_cons]
    apply ih
    intro q hq
    rcases mem_jsMapSet m p.id 0 q hq with h | h
    · simp [h]
    · exact hm q h

theorem sumVals_of_all_zero (m : List (String × ℚ)) (h : ∀ q ∈ m, q.2 = 0) :
    sumVals m = 0 := by
  induction m with
  | nil => simp [sumVals]
  | cons q rest ih =>
    have h1 : q.2 = 0 := h q (List.mem_cons_self q rest)
    have h2 : sumVals rest = 0 := ih (fun x hx => h x (List.mem_cons_of_mem q hx))
    simp only [sumVals, List.map_cons, List.sum_cons] at h2 ⊢
    rw [h1, h2, add_zero]

/-- A small concrete player roster for witnesses. -/
def exPlayerA : Player := { id := "a", name := "A", balance := 0, isActive := true }

/-- Second concrete player. -/
def exPlayerB : Player := { id := "b", name := "B", balance := 0, isActive := true }

/-- Third concrete player, inactive. -/
def exPlayerC : Player := { id := "c", name := "C", balance := 0, isActive := false }

/-- A fresh two-player session with piatto 3 and an empty event log. -/
def exBase : GameSession :=
  { id := "s", piatto := 3, players := [exPlayerA, exPlayerB],
    currentDealerIndex := 0, events := [], createdAt := 0, updatedAt := 0,
    currency := none }

/-- C2: the claimed invariant is that balances sum to zero after any
sequence of dealer_pay, bestia-free round_end, and giro_chiuso events.
It fails already for a single dealer_pay event: recordDealerSelection
debits the dealer the piatto and credits nobody, so the balances sum to
minus the piatto. Here the log consists of exactly one dealer_pay event
and the balances sum to -3, not 0. -/
theorem claim_c2_counterexample :
    ((recordDealerSelection exBase "a" "e1" 1).events.map GameEvent.type
        = [EventType.dealer_pay])
    ∧ sumVals (calculatePlayerBalances (recordDealerSelection exBase "a" "e1" 1)) ≠ 0 := by
  constructor
  · norm_num [recordDealerSelection, exBase, exPlayerA, exPlayerB, List.find?, findIndexAux]
  · norm_num [recordDealerSelection, exBase, exPlayerA, exPlayerB, List.find?, findIndexAux,
      calculatePlayerBalances, sumVals, jsMapSet, jsMapGet]

/-- C2 (amended): for every session, whatever its event log, the values
of calculatePlayerBalances sum to the negation of calculateCurrentPot:
money paid into the pot (dealer_pay, giro_chiuso) has no matching player
credit, so the player balances sum to zero exactly when the pot is
empty, not after arbitrary event sequences. -/
theorem claim_c2_balances_sum_eq_neg_pot (s : GameSession) :
    sumVals (calculatePlayerBalances s) = -(calculateCurrentPot s) := by
  have hinit : ∀ q ∈ s.players.foldl (fun m p => jsMapSet m p.id 0) [], q.2 = 0 :=
    initBalances_zero s.players [] (by simp)
  have h0 : sumVals (s.players.foldl (fun m p => jsMapSet m p.id 0) []) = 0 :=
    sumVals_of_all_zero _ hinit
  simp only [calculatePlayerBalances, calculateCurrentPot]
  rw [sumVals_evFold, potFold, h0]
  ring

/-- C3: for every session and every k, calculateCurrentPot of the session
restricted to its first k events is the negated sum of all transaction
amounts across those events, and on the full session it is the negated
sum across the whole history. -/
theorem claim_c3_pot_prefix (s : GameSession) (k : ℕ) :
    calculateCurrentPot { s with events := s.events.take k }
        = -(((s.events.take k).map eventAmounts).sum)
    ∧ calculateCurrentPot s = -((s.events.map eventAmounts).sum) := by
  constructor
  · simp only [calculateCurrentPot]
    rw [potFold]
    simp
  · simp only [calculateCurrentPot]
    rw [potFold]
    simp

/-- C6: recordDealerSelection with an id that matches no player in
session.players returns the input session unchanged: the guard bails out
before any event is appended, the dealer index moves, or the updatedAt
stamp is touched. -/
theorem claim_c6_unknown_dealer_noop (s : GameSession) (did eid : String) (now : ℤ)
    (h : ∀ p ∈ s.players, p.id ≠ did) :
    recordDealerSelection s did eid now = s := by
  have hf : s.players.find? (fun p => p.id = did) = none := by
    apply List.find?_eq_none.mpr
    intro p hp
    simp [h p hp]
  simp [recordDealerSelection, hf]

/-- C6 witness: a concrete no-op call on the two-player session. -/
theorem claim_c6_witness : recordDealerSelection exBase "zzz" "e9" 7 = exBase :=
  claim_c6_unknown_dealer_noop exBase "zzz" "e9" 7
    (by simp [exBase, exPlayerA, exPlayerB])

/-- C7: recordGiroChiuso appends a single giro_chiuso event holding one
transaction of amount -piatto for every entry of session.players (the map
runs over the full roster, so inactive players are debited too), then
rotates currentDealerIndex to (currentDealerIndex + 1) mod playerCount. -/
theorem claim_c7_giro_chiuso (s : GameSession) (eid : String) (now : ℤ)
    (hidx : s.currentDealerIndex < s.players.length) :
    ∃ ev : GameEvent,
      (recordGiroChiuso s eid now).events = s.events ++ [ev]
      ∧ ev.type = EventType.giro_chiuso
      ∧ ev.transactions = s.players.map (fun p => Transaction.mk p.id (-s.piatto))
      ∧ (recordGiroChiuso s eid now).currentDealerIndex
          = (s.currentDealerIndex + 1) % s.players.length := by
  exact ⟨_, rfl, rfl, rfl, rfl⟩

/-- Three-player session whose third player is inactive. -/
def exBase3 : GameSession := { exBase with players := [exPlayerA, exPlayerB, exPlayerC] }

/-- C7 witness: the concrete three-player session (third player inactive)
satisfies the round-closure contract. -/
theorem claim_c7_witness :
    ∃ ev : GameEvent,
      (recordGiroChiuso exBase3 "e1" 5).events = exBase3.events ++ [ev]
      ∧ ev.type = EventType.giro_chiuso
      ∧ ev.transactions = exBase3.players.map (fun p => Transaction.mk p.id (-exBase3.piatto))
      ∧ (recordGiroChiuso exBase3 "e1" 5).currentDealerIndex
          = (exBase3.currentDealerIndex + 1) % exBase3.players.length :=
  claim_c7_giro_chiuso exBase3 "e1" 5 (by simp [exBase3, exBase])

theorem getCurrentDealerIdAux_spec (s : GameSession) (l : List GameEvent) :
    (l.find? (fun e => e.type = EventType.dealer_pay) = none →
      getCurrentDealerIdAux s l = firstPlayerId s)
    ∧ ∀ e : GameEvent, l.find? (fun e => e.type = EventType.dealer_pay) = some e →
        getCurrentDealerIdAux s l
          = jsOrString (e.metadata.bind (fun md => md.dealerPlayerId)) (firstPlayerId s) := by
  induction l with
  | nil =>
    constructor
    · intro _; rfl
    · intro e he; simp at he
  | cons x rest ih =>
    by_cases hx : x.type = EventType.dealer_pay
    · constructor
      · intro h
        rw [List.find?_cons_of_pos _ (by simp [hx])] at h
        simp at h
      · intro e he
        rw [List.find?_cons_of_pos _ (by simp [hx])] at he
        simp at he
        subst he
        simp [getCurrentDealerIdAux, hx]
    · constructor
      · intro h
        rw [List.find?_cons_of_neg _ (by simp [hx])] at h
        simp [getCurrentDealerIdAux, hx]
        exact ih.1 h
      · intro e he
        rw [List.find?_cons_of_neg _ (by simp [hx])] at he
        simp [getCurrentDealerIdAux, hx]
        exact ih.2 e he

/-- C8: getCurrentDealerId scans the event log backwards; when a
dealer_pay event exists, the scan stops at the most recent one (the first
of the reversed log) and returns its dealerPlayerId metadata (provided
that metadata is present and non-empty, the JS fallback notwithstanding);
with no dealer_pay event in the log it returns players[0].id. -/
theorem claim_c8_current_dealer (s : GameSession) :
    (s.events.reverse.find? (fun e => e.type = EventType.dealer_pay) = none →
      ∀ p ps, s.players = p :: ps → getCurrentDealerId s = p.id)
    ∧ (∀ e : GameEvent,
        s.events.reverse.find? (fun e => e.type = EventType.dealer_pay) = some e →
        ∀ md d, e.metadata = some md → md.dealerPlayerId = some d → d ≠ "" →
          getCurrentDealerId s = d) := by
  constructor
  · intro h p ps hp
    unfold getCurrentDealerId
    rw [(getCurrentDealerIdAux_spec s s.events.reverse).1 h]
    simp [firstPlayerId, hp]
  · intro e he md d hmd hd hne
    unfold getCurrentDealerId
    rw [(getCurrentDealerIdAux_spec s s.events.reverse).2 e he]
    simp [jsOrString, hmd, hd, hne]

/-- The two-player session right after the dealer selection of player a. -/
def exAfterDealer : GameSession := recordDealerSelection exBase "a" "e1" 1

/-- C8 witness: after a concrete dealer selection the scan returns the
recorded dealer id, and on the fresh session it returns players[0].id. -/
theorem claim_c8_witness :
    getCurrentDealerId exAfterDealer = "a" ∧ getCurrentDealerId exBase = "a" := by
  have hev : exAfterDealer.events =
      [{ id := "e1", type := EventType.dealer_pay, timestamp := 1,
         transactions := [Transaction.mk "a" (-(3 : ℚ))],
         metadata := some { dealerPlayerId := some "a", prese := none,
                            bestiaPlayers := none, description := none } }] := by
    simp [exAfterDealer, recordDealerSelection, exBase, exPlayerA, exPlayerB,
      List.find?, findIndexAux]
  constructor
  · apply (claim_c8_current_dealer exAfterDealer).2
      { id := "e1", type := EventType.dealer_pay, timestamp := 1,
        transactions := [Transaction.mk "a" (-(3 : ℚ))],
        metadata := some { dealerPlayerId := some "a", prese := none,
                           bestiaPlayers := none, description := none } }
      (by rw [hev]; simp [List.find?])
      { dealerPlayerId := some "a", prese := none,
        bestiaPlayers := none, description := none }
      "a" rfl rfl (by decide)
  · exact (claim_c8_current_dealer exBase).1 (by simp [exBase]) exPlayerA [exPlayerB]
      (by simp [exBase])

theorem findIndexAux_some (l : List Player) (did : String) (p : Player)
    (hpid : p.id = did) :
    p ∈ l → ∀ i : ℕ, ∃ j, findIndexAux l did i = some j := by
  induction l with
  | nil => intro hp; simp at hp
  | cons x rest ih =>
    intro hp i
    by_cases hx : x.id = did
    · exact ⟨i, by simp [findIndexAux, hx]⟩
    · rcases List.mem_cons.mp hp with h | h
      · have hxid : x.id = did := by rw [← h]; exact hpid
        exact absurd hxid hx
      · rcases ih h (i + 1) with ⟨j, hj⟩
        exact ⟨j, by simp [findIndexAux, hx, hj]⟩

/-- C10: recordRound, recordGiroChiuso, and recordDealerSelection with a
matching dealer id each append exactly one event to session.events and
leave session.id, session.piatto, session.players, and session.createdAt
unchanged. -/
theorem claim_c10_frame (s : GameSession) (preseMap : List (String × ℚ))
    (bestia : List String) (did eid : String) (now : ℤ)
    (hd : ∃ p ∈ s.players, p.id = did) :
    ((∃ ev, (recordRound s preseMap bestia eid now).events = s.events ++ [ev])
      ∧ (recordRound s preseMap bestia eid now).id = s.id
      ∧ (recordRound s preseMap bestia eid now).piatto = s.piatto
      ∧ (recordRound s preseMap bestia eid now).players = s.players
      ∧ (recordRound s preseMap bestia eid now).createdAt = s.createdAt)
    ∧ ((∃ ev, (recordGiroChiuso s eid now).events = s.events ++ [ev])
      ∧ (recordGiroChiuso s eid now).id = s.id
      ∧ (recordGiroChiuso s eid now).piatto = s.piatto
      ∧ (recordGiroChiuso s eid now).players = s.players
      ∧ (recordGiroChiuso s eid now).createdAt = s.createdAt)
    ∧ ((∃ ev, (recordDealerSelection s did eid now).events = s.events ++ [ev])
      ∧ (recordDealerSelection s did eid now).id = s.id
      ∧ (recordDealerSelection s did eid now).piatto = s.piatto
      ∧ (recordDealerSelection s did eid now).players = s.players
      ∧ (recordDealerSelection s did eid now).createdAt = s.createdAt) := by
  refine ⟨⟨⟨_, rfl⟩, rfl, rfl, rfl, rfl⟩, ⟨⟨_, rfl⟩, rfl, rfl, rfl, rfl⟩, ?_⟩
  rcases hd with ⟨p, hp, hpid⟩
  have hf : ∃ q, s.players.find? (fun p => p.id = did) = some q := by
    have hs : (s.players.find? (fun r => r.id = did)).isSome :=
      List.find?_isSome.mpr ⟨p, hp, by rw [hpid]; simp⟩
    exact Option.isSome_iff_exists.mp hs
  rcases hf with ⟨q, hq⟩
  rcases findIndexAux_some s.players did p hpid hp 0 with ⟨j, hj⟩
  have heq : recordDealerSelection s did eid now =
      { s with
        currentDealerIndex := j,
        events := s.events ++
          [{ id := eid, type := EventType.dealer_pay, timestamp := now,
             transactions := [Transaction.mk did (-s.piatto)],
             metadata := some { dealerPlayerId := some did, prese := none,
                                bestiaPlayers := none, description := none } }],
        updatedAt := now } := by
    simp only [recordDealerSelection, hq, hj]
  rw [heq]
  exact ⟨⟨_, rfl⟩, rfl, rfl, rfl, rfl⟩

/-- C10 witness: one concrete call of each mutator on the two-player
session. -/
theorem claim_c10_witness :
    ((∃ ev, (recordRound exBase [("a", 2), ("b", 1)] [] "e1" 5).events
        = exBase.events ++ [ev])
      ∧ (recordRound exBase [("a", 2), ("b", 1)] [] "e1" 5).id = exBase.id
      ∧ (recordRound exBase [("a", 2), ("b", 1)] [] "e1" 5).piatto = exBase.piatto
      ∧ (recordRound exBase [("a", 2), ("b", 1)] [] "e1" 5).players = exBase.players
      ∧ (recordRound exBase [("a", 2), ("b", 1)] [] "e1" 5).createdAt = exBase.createdAt)
    ∧ ((∃ ev, (recordGiroChiuso exBase "e1" 5).events = exBase.events ++ [ev])
      ∧ (recordGiroChiuso exBase "e1" 5).id = exBase.id
      ∧ (recordGiroChiuso exBase "e1" 5).piatto = exBase.piatto
      ∧ (recordGiroChiuso exBase "e1" 5).players = exBase.players
      ∧ (recordGiroChiuso exBase "e1" 5).createdAt = exBase.createdAt)
    ∧ ((∃ ev, (recordDealerSelection exBase "a" "e1" 5).events = exBase.events ++ [ev])
      ∧ (recordDealerSelection exBase "a" "e1" 5).id = exBase.id
      ∧ (recordDealerSelection exBase "a" "e1" 5).piatto = exBase.piatto
      ∧ (recordDealerSelection exBase "a" "e1" 5).players = exBase.players
      ∧ (recordDealerSelection exBase "a" "e1" 5).createdAt = exBase.createdAt) :=
  claim_c10_frame exBase [("a", 2), ("b", 1)] [] "a" "e1" 5
    ⟨exPlayerA, by simp [exBase], rfl⟩

theorem foldl_jsMapSet_append (ps : List (String × ℚ)) :
    ∀ acc : List (String × ℚ), (keysOf acc ++ keysOf ps).Nodup →
      ps.foldl (fun m q => jsMapSet m q.1 q.2) acc = acc ++ ps := by
  induction ps with
  | nil => intro acc _; simp
  | cons q rest ih =>
    intro acc h
    have hnd : ((acc.map Prod.fst) ++ q.1 :: rest.map Prod.fst).Nodup := by
      simpa [keysOf] using h
    have hsplit := List.nodup_append.mp hnd
    have hq : q.1 ∉ keysOf acc := fun hmem => hsplit.2.2 hmem (List.mem_cons_self _ _)
    have h2 : (keysOf (acc ++ [(q.1, q.2)]) ++ keysOf rest).Nodup := by
      simpa [keysOf, List.append_assoc] using h
    simp only [List.foldl_cons]
    rw [jsMapSet_of_not_mem acc q.1 q.2 hq, ih (acc ++ [(q.1, q.2)]) h2]
    simp

theorem jsNewMap_of_nodup (ps : List (String × ℚ)) (h : (keysOf ps).Nodup) :
    jsNewMap ps = ps := by
  have hfold := foldl_jsMapSet_append ps [] (by simpa [keysOf] using h)
  simpa [jsNewMap] using hfold

theorem decode_encode_event (e : GameEvent)
    (h : ∀ md ps, e.metadata = some md → md.prese = some ps → (keysOf ps).Nodup) :
    decodeEventFromSharing (encodeEventForSharing e) = e := by
  rcases e with ⟨eid, ty, ts, txs, md⟩
  rcases md with _ | md
  · rfl
  · rcases md with ⟨d, pr, b, desc⟩
    rcases pr with _ | ps
    · rfl
    · have hnd := h ⟨d, some ps, b, desc⟩ ps rfl rfl
      simp [encodeEventForSharing, decodeEventFromSharing, jsMapEntries,
        jsNewMap_of_nodup ps hnd]

theorem decode_encode_events (l : List GameEvent)
    (h : ∀ e ∈ l, ∀ md ps, e.metadata = some md → md.prese = some ps →
      (keysOf ps).Nodup) :
    (l.map encodeEventForSharing).map decodeEventFromSharing = l := by
  induction l with
  | nil => rfl
  | cons e rest ih =>
    simp only [List.map_cons]
    rw [decode_encode_event e (fun md ps hmd hps => h e (by simp) md ps hmd hps),
        ih (fun x hx md ps hmd hps => h x (by simp [hx]) md ps hmd hps)]

/-- C4: decoding an encoded session reproduces it exactly, including the
nested prese mappings, which are serialized as ordered pair lists and
rebuilt with the Map constructor. The hypothesis records the JS Map
invariant that the keys of each prese mapping are distinct; the external
gzip/base64/JSON transport is an exact inverse pair outside the
repository and is not re-modelled. -/
theorem claim_c4_roundtrip (s : GameSession)
    (h : ∀ e ∈ s.events, ∀ md ps, e.metadata = some md → md.prese = some ps →
      (keysOf ps).Nodup) :
    decodeGameFromSharing (encodeGameForSharing s) = some s := by
  simp only [decodeGameFromSharing, encodeGameForSharing]
  rw [decode_encode_events s.events h]

/-- A session with a dealer_pay event and a round_end event holding a
two-entry prese mapping. -/
def exShared : GameSession :=
  { exBase with events :=
      [ { id := "e1", type := EventType.dealer_pay, timestamp := 1,
          transactions := [Transaction.mk "a" (-3)],
          metadata := some { dealerPlayerId := some "a", prese := none,
                             bestiaPlayers := none, description := none } },
        { id := "e2", type := EventType.round_end, timestamp := 2,
          transactions := [Transaction.mk "a" 2, Transaction.mk "b" 1],
          metadata := some { dealerPlayerId := some "a",
                             prese := some [("a", 2), ("b", 1)],
                             bestiaPlayers := some [],
                             description := none } } ] }

/-- C4 witness: the concrete session with a nested two-entry prese
mapping round-trips. -/
theorem claim_c4_witness :
    decodeGameFromSharing (encodeGameForSharing exShared) = some exShared :=
  claim_c4_roundtrip exShared (by
    intro e he md ps hmd hps
    simp [exShared, exBase] at he
    rcases he with he | he
    · subst he
      simp at hmd
      subst hmd
      simp at hps
    · subst he
      simp at hmd
      subst hmd
      simp at hps
      subst hps
      simp [keysOf, List.nodup_cons])

/-- Net amount a given player receives across a transaction list. -/
def txTotal (ts : List Transaction) (k : String) : ℚ :=
  ((ts.filter (fun t => t.playerId = k)).map Transaction.amount).sum

/-- Sum of the values bound to a key across an association list. -/
def mapSumAt (m : List (String × ℚ)) (k : String) : ℚ :=
  ((m.filter (fun q => q.1 = k)).map Prod.snd).sum

theorem initPayouts_get (players : List Player) :
    ∀ (m0 : List (String × ℚ)) (k : String),
      jsMapGet (players.foldl (fun m p => jsMapSet m p.id 0) m0) k
        = if players.any (fun p => p.id = k) then some 0 else jsMapGet m0 k := by
  induction players with
  | nil => intro m0 k; simp
  | cons p rest ih =>
    intro m0 k
    simp only [List.foldl_cons, List.any_cons]
    rw [ih]
    by_cases hp : p.id = k
    · by_cases hr : rest.any (fun p => p.id = k) <;>
        simp [hp, hr, jsMapGet_jsMapSet]
    · have hp2 : ¬ k = p.id := fun h => hp h.symm
      by_cases hr : rest.any (fun p => p.id = k) <;>
        simp [hp, hp2, hr, jsMapGet_jsMapSet]

theorem addWinnerShares_get (w : List (String × ℚ)) (T pot : ℚ) :
    ∀ (m : List (String × ℚ)) (k : String),
      jsMapGet (addWinnerShares w T pot m) k
        = if w.any (fun q => q.1 = k)
          then some ((jsMapGet m k).getD 0
              + ((w.filter (fun q => q.1 = k)).map (fun q => q.2 / T * pot)).sum)
          else jsMapGet m k := by
  induction w with
  | nil => intro m k; simp [addWinnerShares]
  | cons q rest ih =>
    intro m k
    rcases q with ⟨q1, q2⟩
    have hstep : addWinnerShares ((q1, q2) :: rest) T pot m
        = addWinnerShares rest T pot
            (jsMapSet m q1 ((jsMapGet m q1).getD 0 + q2 / T * pot)) := rfl
    rw [hstep, ih]
    by_cases hq : q1 = k
    · subst hq
      have hget : jsMapGet (jsMapSet m q1 ((jsMapGet m q1).getD 0 + q2 / T * pot)) q1
          = some ((jsMapGet m q1).getD 0 + q2 / T * pot) := by
        rw [jsMapGet_jsMapSet]
        simp
      have hany : (((q1, q2) :: rest).any (fun x => x.1 = q1)) = true := by simp
      by_cases hr : rest.any (fun x => x.1 = q1)
      · rw [if_pos hr, hget, if_pos hany, List.filter_cons]
        simp
        ring
      · have hfil : rest.filter (fun x => x.1 = q1) = [] := by
          rw [List.filter_eq_nil_iff]
          intro a ha hak
          rw [List.any_eq_true] at hr
          exact hr ⟨a, ha, hak⟩
        rw [if_neg hr, hget, if_pos hany, List.filter_cons, hfil]
        simp
    · have hget : jsMapGet (jsMapSet m q1 ((jsMapGet m q1).getD 0 + q2 / T * pot)) k
          = jsMapGet m k := by
        rw [jsMapGet_jsMapSet, if_neg (fun h : k = q1 => hq h.symm)]
      have hq2 : ¬ ((q1, q2).1 = k) := hq
      by_cases hr : rest.any (fun x => x.1 = k) <;>
        simp [hq, hq2, hr, hget, List.filter_cons]

theorem addBestiaDebits_get (b : List String) (pot : ℚ) :
    ∀ (m : List (String × ℚ)) (k : String),
      jsMapGet (addBestiaDebits b pot m) k
        = if b.any (fun pid => pid = k)
          then some ((jsMapGet m k).getD 0
              - ((b.filter (fun pid => pid = k)).length : ℚ) * pot)
          else jsMapGet m k := by
  induction b with
  | nil => intro m k; simp [addBestiaDebits]
  | cons pid rest ih =>
    intro m k
    have hstep : addBestiaDebits (pid :: rest) pot m
        = addBestiaDebits rest pot
            (jsMapSet m pid ((jsMapGet m pid).getD 0 - pot)) := rfl
    rw [hstep, ih]
    by_cases hq : pid = k
    · subst hq
      have hget : jsMapGet (jsMapSet m pid ((jsMapGet m pid).getD 0 - pot)) pid
          = some ((jsMapGet m pid).getD 0 - pot) := by
        rw [jsMapGet_jsMapSet]
        simp
      have hany : ((pid :: rest).any (fun x => x = pid)) = true := by simp
      by_cases hr : rest.any (fun x => x = pid)
      · rw [if_pos hr, hget, if_pos hany, List.filter_cons]
        simp
        ring
      · have hfil : rest.filter (fun x => x = pid) = [] := by
          rw [List.filter_eq_nil_iff]
          intro a ha hak
          rw [List.any_eq_true] at hr
          exact hr ⟨a, ha, hak⟩
        rw [if_neg hr, hget, if_pos hany, List.filter_cons, hfil]
        simp
    · have hget : jsMapGet (jsMapSet m pid ((jsMapGet m pid).getD 0 - pot)) k
          = jsMapGet m k := by
        rw [jsMapGet_jsMapSet, if_neg (fun h : k = pid => hq h.symm)]
      by_cases hr : rest.any (fun x => x = k) <;>
        simp [hq, hr, hget, List.filter_cons]

theorem nodup_initPayouts_fold (players : List Player) :
    ∀ m0 : List (String × ℚ), (keysOf m0).Nodup →
      (keysOf (players.foldl (fun m p => jsMapSet m p.id 0) m0)).Nodup := by
  induction players with
  | nil => intro m0 h; simpa using h
  | cons p rest ih =>
    intro m0 h
    simp only [List.foldl_cons]
    exact ih _ (nodup_keysOf_jsMapSet m0 p.id 0 h)

theorem nodup_addWinnerShares (w : List (String × ℚ)) (T pot : ℚ) :
    ∀ m : List (String × ℚ), (keysOf m).Nodup →
      (keysOf (addWinnerShares w T pot m)).Nodup := by
  induction w with
  | nil => intro m h; simpa [addWinnerShares] using h
  | cons q rest ih =>
    intro m h
    have hstep : addWinnerShares (q :: rest) T pot m
        = addWinnerShares rest T pot
            (jsMapSet m q.1 ((jsMapGet m q.1).getD 0 + q.2 / T * pot)) := rfl
    rw [hstep]
    exact ih _ (nodup_keysOf_jsMapSet m q.1 _ h)

theorem nodup_addBestiaDebits (b : List String) (pot : ℚ) :
    ∀ m : List (String × ℚ), (keysOf m).Nodup →
      (keysOf (addBestiaDebits b pot m)).Nodup := by
  induction b with
  | nil => intro m h; simpa [addBestiaDebits] using h
  | cons pid rest ih =>
    intro m h
    have hstep : addBestiaDebits (pid :: rest) pot m
        = addBestiaDebits rest pot
            (jsMapSet m pid ((jsMapGet m pid).getD 0 - pot)) := rfl
    rw [hstep]
    exact ih _ (nodup_keysOf_jsMapSet m pid _ h)

theorem nodup_roundPayouts (s : GameSession) (pm : List (String × ℚ))
    (b : List String) : (keysOf (roundPayouts s pm b)).Nodup := by
  have h0 : (keysOf (initPayouts s.players)).Nodup :=
    nodup_initPayouts_fold s.players [] (by simp [keysOf])
  have h1 := nodup_addWinnerShares (pm.filter (fun q => 0 < q.2))
    ((pm.filter (fun q => 0 < q.2)).map (fun q => q.2)).sum (calculateCurrentPot s)
    (initPayouts s.players) h0
  simp only [roundPayouts]
  by_cases hb : b.length > 0
  · simp only [if_pos hb]
    exact nodup_addBestiaDebits b (calculateCurrentPot s) _ h1
  · simp only [if_neg hb]
    exact h1

theorem txTotal_of_payouts (m : List (String × ℚ)) (k : String) :
    txTotal ((m.filter (fun q => q.2 ≠ 0)).map (fun q => Transaction.mk q.1 q.2)) k
      = mapSumAt m k := by
  induction m with
  | nil => simp [txTotal, mapSumAt]
  | cons q rest ih =>
    by_cases h2 : q.2 = 0
    · by_cases h1 : q.1 = k <;>
        simp [txTotal, mapSumAt, List.filter_cons, h1, h2] at ih ⊢ <;> linarith
    · by_cases h1 : q.1 = k <;>
        simp [txTotal, mapSumAt, List.filter_cons, h1, h2] at ih ⊢ <;> linarith

theorem mapSumAt_of_not_mem (m : List (String × ℚ)) (k : String)
    (h : k ∉ keysOf m) : mapSumAt m k = 0 := by
  induction m with
  | nil => simp [mapSumAt]
  | cons q rest ih =>
    have hq : q.1 ≠ k := fun he => h (by simp [keysOf, he])
    have hrest : k ∉ keysOf rest := fun hm => h (by simp [keysOf] at hm ⊢; right; exact hm)
    simp [mapSumAt, List.filter_cons, hq] at ih ⊢
    exact ih hrest

theorem mapSumAt_eq_getD (m : List (String × ℚ)) (k : String)
    (h : (keysOf m).Nodup) : mapSumAt m k = (jsMapGet m k).getD 0 := by
  induction m with
  | nil => simp [mapSumAt, jsMapGet]
  | cons q rest ih =>
    have hnd2 : (keysOf rest).Nodup := by
      simp only [keysOf, List.map_cons, List.nodup_cons] at h
      exact h.2
    have hq1 : q.1 ∉ keysOf rest := by
      simp only [keysOf, List.map_cons, List.nodup_cons] at h
      exact h.1
    by_cases hq : q.1 = k
    · have hzero : mapSumAt rest k = 0 :=
        mapSumAt_of_not_mem rest k (by rw [← hq]; exact hq1)
      simp [mapSumAt, List.filter_cons, jsMapGet, hq] at hzero ⊢
      exact hzero
    · simp [mapSumAt, List.filter_cons, jsMapGet, hq] at ih ⊢
      exact ih hnd2

theorem initPayouts_getD (players : List Player) (k : String) :
    (jsMapGet (initPayouts players) k).getD 0 = 0 := by
  have h := initPayouts_get players [] k
  rw [show initPayouts players = players.foldl (fun m p => jsMapSet m p.id 0) [] from rfl, h]
  by_cases hp : players.any (fun p => p.id = k) <;> simp [hp, jsMapGet]

theorem filter_len_eq_count (l : List String) (k : String) :
    (l.filter (fun x => x = k)).length = l.count k := by
  induction l with
  | nil => rfl
  | cons x rest ih =>
    by_cases hx : x = k <;> simp [List.filter_cons, List.count_cons, hx, ih]

theorem filter_key_nil (m : List (String × ℚ)) (k : String) (h : k ∉ keysOf m) :
    m.filter (fun q => q.1 = k) = [] := by
  rw [List.filter_eq_nil_iff]
  intro a ha hak
  exact h (List.mem_map.mpr ⟨a, ha, by simpa using hak⟩)

theorem filter_key_singleton (m : List (String × ℚ)) (k : String) (v : ℚ) :
    (keysOf m).Nodup → (k, v) ∈ m → m.filter (fun q => q.1 = k) = [(k, v)] := by
  induction m with
  | nil => intro _ hm; simp at hm
  | cons q rest ih =>
    intro hnd hm
    have hnd2 : (keysOf rest).Nodup := by
      simp only [keysOf, List.map_cons, List.nodup_cons] at hnd
      exact hnd.2
    have hq1 : q.1 ∉ keysOf rest := by
      simp only [keysOf, List.map_cons, List.nodup_cons] at hnd
      exact hnd.1
    rcases List.mem_cons.mp hm with h | h
    · have hqk : q.1 = k := by rw [← h]
      have hrestnil : rest.filter (fun x => x.1 = k) = [] :=
        filter_key_nil rest k (hqk ▸ hq1)
      rw [List.filter_cons, if_pos (by simp [hqk]), hrestnil, h]
    · have hkrest : k ∈ keysOf rest := List.mem_map.mpr ⟨(k, v), h, rfl⟩
      have hq : ¬ (q.1 = k) := fun he => hq1 (he ▸ hkrest)
      rw [List.filter_cons, if_neg (by simp [hq])]
      exact ih hnd2 h

theorem roundPayouts_getD (s : GameSession) (pm : List (String × ℚ))
    (b : List String) (k : String) :
    (jsMapGet (roundPayouts s pm b) k).getD 0
      = (((pm.filter (fun q => 0 < q.2)).filter (fun q => q.1 = k)).map
            (fun q => q.2 / ((pm.filter (fun x => 0 < x.2)).map (fun x => x.2)).sum
                * calculateCurrentPot s)).sum
        - (b.count k : ℚ) * calculateCurrentPot s := by
  have hshares : (jsMapGet (addWinnerShares (pm.filter (fun q => 0 < q.2))
      ((pm.filter (fun q => 0 < q.2)).map (fun q => q.2)).sum (calculateCurrentPot s)
      (initPayouts s.players)) k).getD 0
      = (((pm.filter (fun q => 0 < q.2)).filter (fun q => q.1 = k)).map
            (fun q => q.2 / ((pm.filter (fun x => 0 < x.2)).map (fun x => x.2)).sum
                * calculateCurrentPot s)).sum := by
    rw [addWinnerShares_get]
    by_cases hw : (pm.filter (fun q => 0 < q.2)).any (fun q => q.1 = k)
    · rw [if_pos hw, Option.getD_some, initPayouts_getD, zero_add]
    · rw [if_neg hw]
      have hfil : (pm.filter (fun q => 0 < q.2)).filter (fun q => q.1 = k) = [] := by
        rw [List.filter_eq_nil_iff]
        intro a ha hak
        rw [List.any_eq_true] at hw
        exact hw ⟨a, ha, hak⟩
      rw [hfil, initPayouts_getD]
      simp
  simp only [roundPayouts]
  by_cases hb : b.length > 0
  · rw [if_pos hb, addBestiaDebits_get]
    by_cases hba : b.any (fun pid => pid = k)
    · rw [if_pos hba, Option.getD_some, hshares, filter_len_eq_count]
    · rw [if_neg hba, hshares]
      have hcnt : b.count k = 0 := by
        rw [List.count_eq_zero]
        intro hmem
        rw [List.any_eq_true] at hba
        exact hba ⟨k, hmem, by simp⟩
      rw [hcnt]
      simp
  · rw [if_neg hb, hshares]
    have hbnil : b = [] := List.length_eq_zero.mp (by omega)
    subst hbnil
    simp

/-- C1: recordRound appends one round_end event whose payouts are taken
from calculateCurrentPot of the input session, i.e. the pot before the
new transactions join the log; every prese-map entry with a positive
count is credited (prese / totalPrese) * potAtStart; every occurrence of
a player in bestiaPlayerIds is debited the full potAtStart independently
(a player listed once pays the entire pot, not a share of it). The
Nodup hypothesis is the JS Map invariant on the prese keys. -/
theorem claim_c1_record_round (s : GameSession) (preseMap : List (String × ℚ))
    (bestia : List String) (eid : String) (now : ℤ)
    (hk : (keysOf preseMap).Nodup) :
    ∃ ev : GameEvent,
      (recordRound s preseMap bestia eid now).events = s.events ++ [ev]
      ∧ ev.type = EventType.round_end
      ∧ (∀ pid prese, (pid, prese) ∈ preseMap → 0 < prese →
          txTotal ev.transactions pid
            = prese / (((preseMap.filter (fun q => 0 < q.2)).map (fun q => q.2)).sum)
                * calculateCurrentPot s
              - (bestia.count pid : ℚ) * calculateCurrentPot s)
      ∧ (∀ pid, (∀ prese, (pid, prese) ∈ preseMap → ¬ 0 < prese) →
          txTotal ev.transactions pid
            = -((bestia.count pid : ℚ) * calculateCurrentPot s)) := by
  refine ⟨_, rfl, rfl, ?_, ?_⟩
  · intro pid prese hmem hpos
    show txTotal (((roundPayouts s preseMap bestia).filter (fun q => q.2 ≠ 0)).map
        (fun q => Transaction.mk q.1 q.2)) pid = _
    rw [txTotal_of_payouts, mapSumAt_eq_getD _ _ (nodup_roundPayouts s preseMap bestia),
        roundPayouts_getD]
    have hwmem : (pid, prese) ∈ preseMap.filter (fun q => 0 < q.2) :=
      List.mem_filter.mpr ⟨hmem, by simp [hpos]⟩
    have hwnodup : (keysOf (preseMap.filter (fun q => 0 < q.2))).Nodup :=
      List.Nodup.sublist (List.Sublist.map Prod.fst (List.filter_sublist _)) hk
    rw [filter_key_singleton _ pid prese hwnodup hwmem]
    simp
  · intro pid hnone
    show txTotal (((roundPayouts s preseMap bestia).filter (fun q => q.2 ≠ 0)).map
        (fun q => Transaction.mk q.1 q.2)) pid = _
    rw [txTotal_of_payouts, mapSumAt_eq_getD _ _ (nodup_roundPayouts s preseMap bestia),
        roundPayouts_getD]
    have hfil : (preseMap.filter (fun q => 0 < q.2)).filter (fun q => q.1 = pid) = [] := by
      rw [List.filter_eq_nil_iff]
      intro a ha hak
      have hmem := List.mem_filter.mp ha
      have ha1 : a.1 = pid := by simpa using hak
      have hposa : 0 < a.2 := by simpa using hmem.2
      exact hnone a.2 (ha1 ▸ (show (a.1, a.2) ∈ preseMap from hmem.1)) hposa
    rw [hfil]
    simp

/-- C1 witness: a concrete bestia round on the session holding a pot of
3: the winner of 2 prese out of 3 is credited 2, and the bestia player
is debited the full pot on top of the winner share accounting. -/
theorem claim_c1_witness :
    ∃ ev : GameEvent,
      (recordRound exAfterDealer [("a", 2), ("b", 1)] ["b"] "e2" 2).events
          = exAfterDealer.events ++ [ev]
      ∧ ev.type = EventType.round_end
      ∧ (∀ pid prese, (pid, prese) ∈ [("a", (2 : ℚ)), ("b", 1)] → 0 < prese →
          txTotal ev.transactions pid
            = prese / ((([("a", (2 : ℚ)), ("b", 1)].filter (fun q => 0 < q.2)).map
                  (fun q => q.2)).sum) * calculateCurrentPot exAfterDealer
              - ((["b"].count pid : ℚ)) * calculateCurrentPot exAfterDealer)
      ∧ (∀ pid, (∀ prese, (pid, prese) ∈ [("a", (2 : ℚ)), ("b", 1)] → ¬ 0 < prese) →
          txTotal ev.transactions pid
            = -(((["b"].count pid : ℚ)) * calculateCurrentPot exAfterDealer)) :=
  claim_c1_record_round exAfterDealer [("a", 2), ("b", 1)] ["b"] "e2" 2
    (by simp [keysOf, List.nodup_cons])

/-- C5 counterexample: on the concrete session with a non-empty pot (3),
calling recordRound with an all-zero prese map and no bestia players
yields a winners list that is empty, so the per-winner share loop (the
only site dividing by totalPrese) never executes and the appended
round_end event carries an empty transactions list: no NaN share
amount is produced, contradicting the claimed division-by-zero defect. -/
theorem claim_c5_counterexample :
    calculateCurrentPot exAfterDealer = 3
    ∧ ([("a", (0 : ℚ)), ("b", 0)].filter (fun q => 0 < q.2)) = []
    ∧ (recordRound exAfterDealer [("a", 0), ("b", 0)] [] "e2" 2).events.getLast?.map
        GameEvent.transactions = some [] := by
  refine ⟨?_, ?_, ?_⟩
  · norm_num [exAfterDealer, recordDealerSelection, exBase, exPlayerA, exPlayerB,
      List.find?, findIndexAux, calculateCurrentPot]
  · norm_num
  · have hpay : roundPayouts exAfterDealer [("a", 0), ("b", 0)] []
        = initPayouts exAfterDealer.players := by
      have hW : ([("a", (0 : ℚ)), ("b", 0)].filter (fun q => 0 < q.2)) = [] := by norm_num
      simp [roundPayouts, hW, addWinnerShares]
    have hfil : ((roundPayouts exAfterDealer [("a", 0), ("b", 0)] []).filter
        (fun q => q.2 ≠ 0)) = [] := by
      rw [hpay, List.filter_eq_nil_iff]
      intro a ha hne
      have hne2 : ¬ a.2 = 0 := by simpa using hne
      exact hne2 (initBalances_zero exAfterDealer.players [] (by simp) a ha)
    show ((exAfterDealer.events ++ [_]).getLast?).map GameEvent.transactions = some []
    rw [List.getLast?_concat]
    show some (((roundPayouts exAfterDealer [("a", 0), ("b", 0)] []).filter
        (fun q => q.2 ≠ 0)).map (fun q => Transaction.mk q.1 q.2)) = some []
    rw [hfil]
    rfl

/-- C5 (amended): when no prese-map entry is positive, the winners list
is empty, so the share computation, and with it the division by
totalPrese, never runs; with an empty bestia list the appended round_end
event has an empty transactions list, and in particular no NaN amounts. -/
theorem claim_c5_no_winners (s : GameSession) (preseMap : List (String × ℚ))
    (eid : String) (now : ℤ) (h : ∀ q ∈ preseMap, ¬ 0 < q.2) :
    ∃ ev : GameEvent,
      (recordRound s preseMap [] eid now).events = s.events ++ [ev]
      ∧ ev.type = EventType.round_end
      ∧ ev.transactions = [] := by
  have hW : preseMap.filter (fun q => 0 < q.2) = [] := by
    rw [List.filter_eq_nil_iff]
    intro a ha hpos
    exact h a ha (by simpa using hpos)
  refine ⟨_, rfl, rfl, ?_⟩
  show ((roundPayouts s preseMap []).filter (fun q => q.2 ≠ 0)).map
      (fun q => Transaction.mk q.1 q.2) = []
  have hpay : roundPayouts s preseMap [] = initPayouts s.players := by
    simp [roundPayouts, hW, addWinnerShares]
  rw [hpay]
  have hz : ∀ q ∈ initPayouts s.players, q.2 = 0 :=
    initBalances_zero s.players [] (by simp)
  have hfil : (initPayouts s.players).filter (fun q => q.2 ≠ 0) = [] := by
    rw [List.filter_eq_nil_iff]
    intro a ha hne
    have hne2 : ¬ a.2 = 0 := by simpa using hne
    exact hne2 (hz a ha)
  rw [hfil]
  rfl

/-- C5 witness for the amended statement: the concrete all-zero prese
round appends an event with no transactions. -/
theorem claim_c5_witness :
    ∃ ev : GameEvent,
      (recordRound exAfterDealer [("a", 0), ("b", 0)] [] "e2" 2).events
          = exAfterDealer.events ++ [ev]
      ∧ ev.type = EventType.round_end
      ∧ ev.transactions = [] := by
  exact claim_c5_no_winners exAfterDealer [("a", 0), ("b", 0)] "e2" 2 (by norm_num)

theorem sumVals_nonpos (m : List (String × ℚ)) (h : ∀ q ∈ m, q.2 ≤ 0) :
    sumVals m ≤ 0 := by
  induction m with
  | nil => simp [sumVals]
  | cons q rest ih =>
    have h1 := h q (List.mem_cons_self q rest)
    have h2 := ih (fun x hx => h x (List.mem_cons_of_mem q hx))
    simp only [sumVals, List.map_cons, List.sum_cons] at h2 ⊢
    linarith

theorem sumVals_nonneg (m : List (String × ℚ)) (h : ∀ q ∈ m, 0 ≤ q.2) :
    0 ≤ sumVals m := by
  induction m with
  | nil => simp [sumVals]
  | cons q rest ih =>
    have h1 := h q (List.mem_cons_self q rest)
    have h2 := ih (fun x hx => h x (List.mem_cons_of_mem q hx))
    simp only [sumVals, List.map_cons, List.sum_cons] at h2 ⊢
    linarith

theorem all_zero_of_nonpos (m : List (String × ℚ)) (h : ∀ q ∈ m, q.2 ≤ 0)
    (hs : sumVals m = 0) : ∀ q ∈ m, q.2 = 0 := by
  induction m with
  | nil => simp
  | cons q rest ih =>
    have h1 := h q (List.mem_cons_self q rest)
    have hrest : ∀ x ∈ rest, x.2 ≤ 0 := fun x hx => h x (List.mem_cons_of_mem q hx)
    have h2 := sumVals_nonpos rest hrest
    simp only [sumVals, List.map_cons, List.sum_cons] at hs
    have hq0 : q.2 = 0 := by
      simp only [sumVals] at h2
      linarith
    have hrs : sumVals rest = 0 := by
      simp only [sumVals] at h2 ⊢
      linarith
    intro x hx
    rcases List.mem_cons.mp hx with he | he
    · rw [he]; exact hq0
    · exact ih hrest hrs x he

theorem all_zero_of_nonneg (m : List (String × ℚ)) (h : ∀ q ∈ m, 0 ≤ q.2)
    (hs : sumVals m = 0) : ∀ q ∈ m, q.2 = 0 := by
  induction m with
  | nil => simp
  | cons q rest ih =>
    have h1 := h q (List.mem_cons_self q rest)
    have hrest : ∀ x ∈ rest, 0 ≤ x.2 := fun x hx => h x (List.mem_cons_of_mem q hx)
    have h2 := sumVals_nonneg rest hrest
    simp only [sumVals, List.map_cons, List.sum_cons] at hs
    have hq0 : q.2 = 0 := by
      simp only [sumVals] at h2
      linarith
    have hrs : sumVals rest = 0 := by
      simp only [sumVals] at h2 ⊢
      linarith
    intro x hx
    rcases List.mem_cons.mp hx with he | he
    · rw [he]; exact hq0
    · exact ih hrest hrs x he

theorem posVals_of_all_zero (m : List (String × ℚ)) (h : ∀ q ∈ m, q.2 = 0) :
    posVals m = 0 := by
  induction m with
  | nil => simp [posVals]
  | cons q rest ih =>
    have h1 := h q (List.mem_cons_self q rest)
    have h2 := ih (fun x hx => h x (List.mem_cons_of_mem q hx))
    simp only [posVals, List.map_cons, List.sum_cons] at h2 ⊢
    rw [h1, h2]
    simp

theorem all_zero_of_nzCount (m : List (String × ℚ)) (h : nzCount m = 0) :
    ∀ q ∈ m, q.2 = 0 := by
  have hnil : m.filter (fun q => q.2 ≠ 0) = [] := List.length_eq_zero.mp h
  intro q hq
  by_contra hne
  have : q ∈ m.filter (fun q => q.2 ≠ 0) := List.mem_filter.mpr ⟨hq, by simpa using hne⟩
  rw [hnil] at this
  simp at this

theorem nodup_txFold (ts : List Transaction) :
    ∀ m : List (String × ℚ), (keysOf m).Nodup →
      (keysOf (ts.foldl
        (fun m t => jsMapSet m t.playerId ((jsMapGet m t.playerId).getD 0 + t.amount))
        m)).Nodup := by
  induction ts with
  | nil => intro m h; simpa using h
  | cons t rest ih =>
    intro m h
    simp only [List.foldl_cons]
    exact ih _ (nodup_keysOf_jsMapSet m t.playerId _ h)

theorem nodup_evFold (events : List GameEvent) :
    ∀ m : List (String × ℚ), (keysOf m).Nodup →
      (keysOf (events.foldl
        (fun m e => e.transactions.foldl
          (fun m t => jsMapSet m t.playerId ((jsMapGet m t.playerId).getD 0 + t.amount)) m)
        m)).Nodup := by
  induction events with
  | nil => intro m h; simpa using h
  | cons e rest ih =>
    intro m h
    simp only [List.foldl_cons]
    exact ih _ (nodup_txFold e.transactions m h)

theorem nodup_balances (s : GameSession) :
    (keysOf (calculatePlayerBalances s)).Nodup := by
  simp only [calculatePlayerBalances]
  exact nodup_evFold s.events _ (nodup_initPayouts_fold s.players [] (by simp [keysOf]))

theorem settleAux_spec (fuel : ℕ) :
    ∀ bal : List (String × ℚ), (keysOf bal).Nodup → sumVals bal = 0 →
      nzCount bal ≤ fuel →
      totalTransferred (settleAux fuel bal) = posVals bal
      ∧ ∀ q ∈ (settleAux fuel bal).foldl applyPayment bal, q.2 = 0 := by
  induction fuel with
  | zero =>
    intro bal _ _ hnz
    have hz : ∀ q ∈ bal, q.2 = 0 := all_zero_of_nzCount bal (Nat.le_zero.mp hnz)
    constructor
    · simp [settleAux, totalTransferred]
      exact (posVals_of_all_zero bal hz).symm
    · simpa [settleAux] using hz
  | succ fuel ih =>
    intro bal hnd hsum hnz
    rcases hmax : pickMax bal with _ | c
    · have hbal : bal = [] := by
        cases bal with
        | nil => rfl
        | cons b bs => exact absurd hmax (pickMax_ne_none b bs)
      subst hbal
      constructor
      · simp [settleAux, totalTransferred, posVals, pickMax]
      · simp [settleAux, pickMax]
    · rcases hmin : pickMin bal with _ | d
      · have hbal : bal = [] := by
          cases bal with
          | nil => rfl
          | cons b bs => exact absurd hmin (pickMin_ne_none b bs)
        subst hbal
        simp [pickMax] at hmax
      · by_cases hcd : 0 < c.2 ∧ d.2 < 0
        · have hcmem := pickMax_mem bal c hmax
          have hdmem := pickMin_mem bal d hmin
          have hgetc : jsMapGet bal c.1 = some c.2 :=
            jsMapGet_of_mem_nodup bal c.1 c.2 hnd hcmem
          have hgetd : jsMapGet bal d.1 = some d.2 :=
            jsMapGet_of_mem_nodup bal d.1 d.2 hnd hdmem
          have hne : d.1 ≠ c.1 := by
            intro he
            rw [he, hgetc] at hgetd
            injection hgetd with h2
            rw [h2] at hcd
            exact absurd hcd.1 (not_lt.mpr (le_of_lt hcd.2))
          have ha_le_c : min c.2 (-d.2) ≤ c.2 := min_le_left _ _
          have ha_le_d : min c.2 (-d.2) ≤ -d.2 := min_le_right _ _
          have ha_pos : 0 < min c.2 (-d.2) := lt_min hcd.1 (by linarith [hcd.2])
          have hget1c : jsMapGet (addToKey bal c.1 (-(min c.2 (-d.2)))) c.1
              = some (c.2 + -(min c.2 (-d.2))) := by
            rw [addToKey, hgetc, jsMapGet_jsMapSet, if_pos rfl]
            rfl
          have hget1d : jsMapGet (addToKey bal c.1 (-(min c.2 (-d.2)))) d.1
              = some d.2 := by
            rw [addToKey, jsMapGet_jsMapSet, if_neg hne]
            exact hgetd
          have hsum2 : sumVals (addToKey (addToKey bal c.1 (-(min c.2 (-d.2)))) d.1
              (min c.2 (-d.2))) = 0 := by
            rw [sumVals_addToKey, sumVals_addToKey]
            linarith [hsum]
          have hnd2 : (keysOf (addToKey (addToKey bal c.1 (-(min c.2 (-d.2)))) d.1
              (min c.2 (-d.2)))).Nodup :=
            nodup_keysOf_jsMapSet _ _ _ (nodup_keysOf_jsMapSet _ _ _ hnd)
          have hpos2 : posVals (addToKey (addToKey bal c.1 (-(min c.2 (-d.2)))) d.1
              (min c.2 (-d.2))) = posVals bal - min c.2 (-d.2) := by
            have h1 := posVals_addToKey bal c.1 (-(min c.2 (-d.2)))
            have h2 := posVals_addToKey (addToKey bal c.1 (-(min c.2 (-d.2)))) d.1
              (min c.2 (-d.2))
            rw [hgetc] at h1
            rw [hget1d] at h2
            simp only [Option.getD_some] at h1 h2
            have hc0 : max c.2 0 = c.2 := max_eq_left (le_of_lt hcd.1)
            have hca : max (c.2 + -(min c.2 (-d.2))) 0 = c.2 - min c.2 (-d.2) := by
              rw [show c.2 + -(min c.2 (-d.2)) = c.2 - min c.2 (-d.2) from by ring]
              exact max_eq_left (by linarith)
            have hd0 : max d.2 0 = 0 := max_eq_right (le_of_lt hcd.2)
            have hda : max (d.2 + min c.2 (-d.2)) 0 = 0 := max_eq_right (by linarith)
            rw [hc0, hca] at h1
            rw [hd0, hda] at h2
            linarith
          have hnz2 : nzCount (addToKey (addToKey bal c.1 (-(min c.2 (-d.2)))) d.1
              (min c.2 (-d.2))) ≤ fuel := by
            have h1 := nzCount_addToKey bal c.1 (-(min c.2 (-d.2)))
            have h2 := nzCount_addToKey (addToKey bal c.1 (-(min c.2 (-d.2)))) d.1
              (min c.2 (-d.2))
            rw [hgetc] at h1
            rw [hget1d] at h2
            simp only [Option.getD_some] at h1 h2
            rw [if_pos (ne_of_gt hcd.1)] at h1
            rw [if_pos (ne_of_lt hcd.2)] at h2
            rcases le_total c.2 (-d.2) with hle | hle
            · have hca : c.2 + -(min c.2 (-d.2)) = 0 := by
                rw [min_eq_left hle]; ring
              simp only [hca] at h1
              norm_num at h1
              by_cases hbb : d.2 + min c.2 (-d.2) ≠ 0
              · rw [if_pos hbb] at h2
                omega
              · rw [if_neg hbb] at h2
                omega
            · have hda : d.2 + min c.2 (-d.2) = 0 := by
                rw [min_eq_right hle]; ring
              simp only [hda] at h2
              norm_num at h2
              by_cases hbb : c.2 + -(min c.2 (-d.2)) ≠ 0
              · rw [if_pos hbb] at h1
                omega
              · rw [if_neg hbb] at h1
                omega
          have hstep : settleAux (fuel + 1) bal
              = Payment.mk d.1 c.1 (min c.2 (-d.2))
                :: settleAux fuel (addToKey (addToKey bal c.1 (-(min c.2 (-d.2)))) d.1
                  (min c.2 (-d.2))) := by
            simp only [settleAux, hmax, hmin, if_pos hcd]
            rfl
          rcases ih (addToKey (addToKey bal c.1 (-(min c.2 (-d.2)))) d.1
              (min c.2 (-d.2))) hnd2 hsum2 hnz2 with ⟨ih1, ih2⟩
          constructor
          · rw [hstep]
            simp only [totalTransferred, List.map_cons, List.sum_cons] at ih1 ⊢
            rw [ih1, hpos2]
            ring
          · rw [hstep]
            simp only [List.foldl_cons]
            exact ih2
        · have hz : ∀ q ∈ bal, q.2 = 0 := by
            rcases not_and_or.mp hcd with hc | hd
            · have hle : ∀ q ∈ bal, q.2 ≤ 0 := fun q hq =>
                le_trans (pickMax_le bal c hmax q hq) (not_lt.mp hc)
              exact all_zero_of_nonpos bal hle hsum
            · have hge : ∀ q ∈ bal, 0 ≤ q.2 := fun q hq =>
                le_trans (not_lt.mp hd) (pickMin_ge bal d hmin q hq)
              exact all_zero_of_nonneg bal hge hsum
          have hsettle : settleAux (fuel + 1) bal = [] := by
            simp only [settleAux, hmax, hmin, if_neg hcd]
          constructor
          · rw [hsettle]
            simp [totalTransferred]
            exact (posVals_of_all_zero bal hz).symm
          · rw [hsettle]
            simpa using hz

/-- C9 (amended): for every session whose player balances sum to zero,
the greedy settlement transfers a total equal to the sum of the positive
balances and applying all returned payments drives every balance exactly
to zero (exact arithmetic stands in for the floating tolerance).
calculateSettlementPayments is modelled from the spec, its
implementation not being among the provided sources; for sessions with
non-zero-sum balances (reachable via bestia rounds or manual entries)
the greedy stops with a residue and the unrestricted claim fails. -/
theorem claim_c9_settlement (s : GameSession)
    (hsum : sumVals (calculatePlayerBalances s) = 0) :
    totalTransferred (calculateSettlementPayments s)
        = posVals (calculatePlayerBalances s)
    ∧ ∀ q ∈ (calculateSettlementPayments s).foldl applyPayment
        (calculatePlayerBalances s), q.2 = 0 := by
  have hlen : nzCount (calculatePlayerBalances s)
      ≤ (calculatePlayerBalances s).length := List.length_filter_le _ _
  simp only [calculateSettlementPayments]
  exact settleAux_spec (calculatePlayerBalances s).length (calculatePlayerBalances s)
    (nodup_balances s) hsum hlen

/-- A one-player session holding a single positive manual credit, so the
balances sum to 5, not 0. -/
def exUnbalanced : GameSession :=
  { exBase with
    players := [exPlayerA],
    events := [{ id := "m1", type := EventType.manual_entry, timestamp := 1,
                 transactions := [Transaction.mk "a" 5], metadata := none }] }

/-- C9 counterexample: on the session whose only balance is +5, the
greedy settlement finds no debtor and returns no payments, so the total
transferred is 0 while the positive balances sum to 5, and the balance
stays 5 after applying the (empty) payment list. -/
theorem claim_c9_counterexample :
    calculateSettlementPayments exUnbalanced = []
    ∧ posVals (calculatePlayerBalances exUnbalanced) = 5
    ∧ totalTransferred (calculateSettlementPayments exUnbalanced)
        ≠ posVals (calculatePlayerBalances exUnbalanced)
    ∧ ¬ (∀ q ∈ (calculateSettlementPayments exUnbalanced).foldl applyPayment
          (calculatePlayerBalances exUnbalanced), q.2 = 0) := by
  have hbal : calculatePlayerBalances exUnbalanced = [("a", 5)] := by
    norm_num [calculatePlayerBalances, exUnbalanced, exBase, exPlayerA,
      jsMapSet, jsMapGet]
  have hpay : calculateSettlementPayments exUnbalanced = [] := by
    simp only [calculateSettlementPayments, hbal]
    norm_num [settleAux, pickMax, pickMin]
  refine ⟨hpay, ?_, ?_, ?_⟩
  · rw [hbal]
    norm_num [posVals]
  · rw [hpay, hbal]
    norm_num [totalTransferred, posVals]
  · intro hall
    have h5 := hall ("a", 5) (by rw [hpay, hbal]; simp)
    norm_num at h5

/-- A balanced two-player session: a +5 and a -5 manual transaction. -/
def exBalanced : GameSession :=
  { exBase with
    events := [{ id := "m1", type := EventType.manual_entry, timestamp := 1,
                 transactions := [Transaction.mk "a" 5, Transaction.mk "b" (-5)],
                 metadata := none }] }

theorem str_ab_ne : ("a" : String) ≠ "b" := by decide

theorem str_ba_ne : ("b" : String) ≠ "a" := by decide

/-- C9 witness: the concrete balanced session settles fully. -/
theorem claim_c9_witness :
    totalTransferred (calculateSettlementPayments exBalanced)
        = posVals (calculatePlayerBalances exBalanced)
    ∧ ∀ q ∈ (calculateSettlementPayments exBalanced).foldl applyPayment
        (calculatePlayerBalances exBalanced), q.2 = 0 := by
  exact claim_c9_settlement exBalanced
    (by norm_num [calculatePlayerBalances, exBalanced, exBase, exPlayerA, exPlayerB,
      jsMapSet, jsMapGet, sumVals, str_ab_ne, str_ba_ne])

end BestiaTracker
